import Mathlib

/-!
Verification of the GPU kernel-extraction stage of PPCG (src/gpu.c)
against its natural-language specification.

Integer tuples (isl set/map points) are modelled as functions `ℕ → ℤ`;
only the first `len` coordinates of an input tuple and the declared
number of output coordinates are ever constrained, exactly as in the
isl basic maps built by the source.
-/

namespace PPCG

/-- Embedding of `tile()` (src/gpu.c:664):
a basic map from a domain of dimensionality `len` to a domain of
dimensionality `len + tile_len` that tiles the `tile_len` coordinates
starting at `first`.  The first loop adds, for every untiled coordinate
`i < len - tile_len`, the equality `out[k] = in[j]` with
`j = i` (`i < first`) or `i + tile_len`, and `k = i` or `i + 2*tile_len`.
The second loop adds, for every `i < tile_len`, the equality
`size[i]*out[first+i] + out[first+tile_len+i] = in[first+i]` and the
inequalities `0 ≤ out[first+tile_len+i] ≤ size[i] - 1`. -/
def tileRel (len first tile_len : ℕ) (size : ℕ → ℤ) (x y : ℕ → ℤ) : Prop :=
  (∀ i < len - tile_len,
    y (if i < first then i else i + 2 * tile_len) =
      x (if i < first then i else i + tile_len)) ∧
  (∀ i < tile_len,
    size i * y (first + i) + y (first + tile_len + i) = x (first + i) ∧
    0 ≤ y (first + tile_len + i) ∧
    y (first + tile_len + i) ≤ size i - 1)

/-- Embedding of `wrap()` (src/gpu.c:722):
a basic map from a domain of dimensionality `len` to a domain of
dimensionality `len + 2*wrap_len` whose last `wrap_len` output
coordinates (the quotients, modelled by the existentially quantified
`q`) are projected out at the end.  The first loop adds, for every
`i < len`, the equality `out[k] = in[i]` with `k = i`
(`i < first + wrap_len`) or `i + 2*wrap_len`; after the projection the
output coordinate `i + 2*wrap_len` becomes coordinate `i + wrap_len`.
The second loop adds, for every `i < wrap_len`, the equality
`out[first+wrap_len+i] + wrap_size[i]*q[i] = out[first+i]` and the
inequalities `0 ≤ out[first+wrap_len+i] ≤ wrap_size[i] - 1`. -/
def wrapRel (len first wrap_len : ℕ) (size : ℕ → ℤ) (x y : ℕ → ℤ) : Prop :=
  ∃ q : ℕ → ℤ,
    (∀ i < len, (if i < first + wrap_len then y i else y (i + wrap_len)) = x i) ∧
    (∀ i < wrap_len,
      y (first + wrap_len + i) + size i * q i = y (first + i) ∧
      0 ≤ y (first + wrap_len + i) ∧
      y (first + wrap_len + i) ≤ size i - 1)

/-- The set of original iteration points covered by the tile map. -/
def tileDomain (len first tile_len : ℕ) (size : ℕ → ℤ) : Set (ℕ → ℤ) :=
  { x | ∃ y, tileRel len first tile_len size x y }

/-- The set of original iteration points covered by the wrap map. -/
def wrapDomain (len first wrap_len : ℕ) (size : ℕ → ℤ) : Set (ℕ → ℤ) :=
  { x | ∃ y, wrapRel len first wrap_len size x y }

/-- The canonical image point of `x` under the tile map:
pass-through coordinates keep their value, coordinate `first + i`
holds the quotient and coordinate `first + tile_len + i` the
remainder of the Euclidean division of `x (first + i)` by `size i`. -/
def tileWitness (first tile_len : ℕ) (size : ℕ → ℤ) (x : ℕ → ℤ) : ℕ → ℤ :=
  fun m =>
    if m < first then x m
    else if m < first + tile_len then x m / size (m - first)
    else if m < first + 2 * tile_len then
      x (m - tile_len) % size (m - first - tile_len)
    else x (m - tile_len)

lemma euclid_pair_unique {b q r q' r' : ℤ} (hb : 0 < b)
    (h : b * q + r = b * q' + r') (h0 : 0 ≤ r) (h1 : r < b)
    (h0' : 0 ≤ r') (h1' : r' < b) : q = q' ∧ r = r' := by
  have e : (b * q' + r') / b = q ∧ (b * q' + r') % b = r :=
    (Int.ediv_emod_unique hb).mpr ⟨by omega, h0, h1⟩
  have e' : (b * q' + r') / b = q' ∧ (b * q' + r') % b = r' :=
    (Int.ediv_emod_unique hb).mpr ⟨by omega, h0', h1'⟩
  omega

lemma tileRel_tileWitness (len first tile_len : ℕ) (size : ℕ → ℤ)
    (hsize : ∀ i < tile_len, 0 < size i) (x : ℕ → ℤ) :
    tileRel len first tile_len size x (tileWitness first tile_len size x) := by
  constructor
  · intro i _
    by_cases hif : i < first
    · simp [tileWitness, hif]
    · have h1 : ¬ i + 2 * tile_len < first := by omega
      have h2 : ¬ i + 2 * tile_len < first + tile_len := by omega
      have h3 : ¬ i + 2 * tile_len < first + 2 * tile_len := by omega
      simp only [tileWitness, hif, if_neg h1, if_neg h2, if_neg h3, if_false]
      congr 1
      omega
  · intro i hi
    have hpos := hsize i hi
    have hq1 : ¬ first + i < first := by omega
    have hq2 : first + i < first + tile_len := by omega
    have hr1 : ¬ first + tile_len + i < first := by omega
    have hr2 : ¬ first + tile_len + i < first + tile_len := by omega
    have hr3 : first + tile_len + i < first + 2 * tile_len := by omega
    have hq4 : first + i - first = i := by omega
    have hr4 : first + tile_len + i - tile_len = first + i := by omega
    have hr5 : first + tile_len + i - first - tile_len = i := by omega
    simp only [tileWitness, if_neg hq1, if_pos hq2, if_neg hr1, if_neg hr2,
      if_pos hr3, hq4, hr4, hr5]
    refine ⟨Int.ediv_add_emod (x (first + i)) (size i), ?_, ?_⟩
    · exact Int.emod_nonneg _ (ne_of_gt hpos)
    · have := Int.emod_lt_of_pos (x (first + i)) hpos
      omega

/-- The canonical image point of `x` under the wrap map (before the
projection of the quotient coordinates): coordinates below
`first + wrap_len` keep their value, coordinate `first + wrap_len + i`
holds the remainder of `x (first + i)` modulo `size i`, and the
remaining pass-through coordinates are shifted up by `wrap_len`. -/
def wrapWitness (first wrap_len : ℕ) (size : ℕ → ℤ) (x : ℕ → ℤ) : ℕ → ℤ :=
  fun m =>
    if m < first + wrap_len then x m
    else if m < first + 2 * wrap_len then
      x (m - wrap_len) % size (m - first - wrap_len)
    else x (m - wrap_len)

lemma wrapRel_wrapWitness (len first wrap_len : ℕ) (size : ℕ → ℤ)
    (hsize : ∀ i < wrap_len, 0 < size i) (x : ℕ → ℤ) :
    wrapRel len first wrap_len size x (wrapWitness first wrap_len size x) := by
  refine ⟨fun i => x (first + i) / size i, ?_, ?_⟩
  · intro i _
    by_cases hif : i < first + wrap_len
    · simp [wrapWitness, hif]
    · have h1 : ¬ i + wrap_len < first + wrap_len := by omega
      by_cases h2 : i + wrap_len < first + 2 * wrap_len
      · have : i < first + wrap_len := by omega
        omega
      · simp only [wrapWitness, hif, if_neg h1, if_neg h2, if_false]
        congr 1
        omega
  · intro i hi
    have hpos := hsize i hi
    have hr1 : ¬ first + wrap_len + i < first + wrap_len := by omega
    have hr2 : first + wrap_len + i < first + 2 * wrap_len := by omega
    have hr4 : first + wrap_len + i - wrap_len = first + i := by omega
    have hr5 : first + wrap_len + i - first - wrap_len = i := by omega
    have hq1 : first + i < first + wrap_len := by omega
    simp only [wrapWitness, if_neg hr1, if_pos hr2, if_pos hq1, hr4, hr5]
    refine ⟨Int.emod_add_ediv (x (first + i)) (size i), ?_, ?_⟩
    · exact Int.emod_nonneg _ (ne_of_gt hpos)
    · have := Int.emod_lt_of_pos (x (first + i)) hpos
      omega

/-- C3: for every tile-size vector with all sizes positive, the map
built by `tile()` relates each input point to exactly one
(outer, inner) pair per tiled coordinate, with
`size i * outer + inner = x (first + i)` and `0 ≤ inner < size i`
(so recombining `outer * size + inner` reproduces the original
coordinate for every reachable point), and the untiled coordinates
pass through unchanged. -/
theorem tile_round_trip (len first tile_len : ℕ) (size : ℕ → ℤ)
    (hsize : ∀ i < tile_len, 0 < size i) (x : ℕ → ℤ) :
    (∃ y, tileRel len first tile_len size x y) ∧
    (∀ y, tileRel len first tile_len size x y →
      (∀ i < tile_len,
        size i * y (first + i) + y (first + tile_len + i) = x (first + i) ∧
        0 ≤ y (first + tile_len + i) ∧ y (first + tile_len + i) < size i) ∧
      (∀ i < len - tile_len,
        y (if i < first then i else i + 2 * tile_len) =
          x (if i < first then i else i + tile_len))) ∧
    (∀ y y', tileRel len first tile_len size x y →
      tileRel len first tile_len size x y' → ∀ i < tile_len,
        y (first + i) = y' (first + i) ∧
        y (first + tile_len + i) = y' (first + tile_len + i)) := by
  refine ⟨⟨tileWitness first tile_len size x,
      tileRel_tileWitness len first tile_len size hsize x⟩, ?_, ?_⟩
  · intro y hy
    refine ⟨fun i hi => ?_, hy.1⟩
    obtain ⟨he, h0, h1⟩ := hy.2 i hi
    exact ⟨he, h0, by omega⟩
  · intro y y' hy hy' i hi
    obtain ⟨he, h0, h1⟩ := hy.2 i hi
    obtain ⟨he', h0', h1'⟩ := hy'.2 i hi
    exact euclid_pair_unique (hsize i hi) (by omega) h0 (by omega) h0' (by omega)

/-- Witness for C3 at `len = 3`, `first = 1`, `tile_len = 1`,
`size = 4` everywhere and the input point `x m = m + 7`. -/
theorem tile_round_trip_witness :
    (∀ i < 1, (0:ℤ) < (fun _ : ℕ => (4:ℤ)) i) ∧
    ((∃ y, tileRel 3 1 1 (fun _ => 4) (fun m => (m:ℤ) + 7) y) ∧
    (∀ y, tileRel 3 1 1 (fun _ => 4) (fun m => (m:ℤ) + 7) y →
      (∀ i < 1,
        (4:ℤ) * y (1 + i) + y (1 + 1 + i) = ((1 + i : ℕ) : ℤ) + 7 ∧
        0 ≤ y (1 + 1 + i) ∧ y (1 + 1 + i) < 4) ∧
      (∀ i < 3 - 1,
        y (if i < 1 then i else i + 2 * 1) =
          ((if i < 1 then i else i + 1 : ℕ) : ℤ) + 7)) ∧
    (∀ y y', tileRel 3 1 1 (fun _ => 4) (fun m => (m:ℤ) + 7) y →
      tileRel 3 1 1 (fun _ => 4) (fun m => (m:ℤ) + 7) y' → ∀ i < 1,
        y (1 + i) = y' (1 + i) ∧ y (1 + 1 + i) = y' (1 + 1 + i))) :=
  ⟨by decide, tile_round_trip 3 1 1 (fun _ => 4) (by decide) (fun m => (m:ℤ) + 7)⟩

/-- C7: for a fixed positive size vector over the same input space, the
maps built by `tile()` and `wrap()` cover exactly the same set of
original iteration points: their domains are equal as sets. -/
theorem tile_wrap_equal_domains (len first n : ℕ) (size : ℕ → ℤ)
    (hsize : ∀ i < n, 0 < size i) :
    tileDomain len first n size = wrapDomain len first n size := by
  apply Set.ext
  intro x
  constructor
  · intro _
    exact ⟨wrapWitness first n size x, wrapRel_wrapWitness len first n size hsize x⟩
  · intro _
    exact ⟨tileWitness first n size x, tileRel_tileWitness len first n size hsize x⟩

/-- Witness for C7 at `len = 2`, `first = 0`, one distributed
coordinate of size `3`. -/
theorem tile_wrap_equal_domains_witness :
    (∀ i < 1, (0:ℤ) < (fun _ : ℕ => (3:ℤ)) i) ∧
    tileDomain 2 0 1 (fun _ => 3) = wrapDomain 2 0 1 (fun _ => 3) :=
  ⟨by decide, tile_wrap_equal_domains 2 0 1 (fun _ => 3) (by decide)⟩

/-! Embedding of `compute_schedule` (src/gpu.c:4587): the dependence
relations of the scop are modelled as abstract sets of dependence
pairs; `isl_union_map_union`, `isl_union_map_subtract` become set
union and difference (`isl_union_map_coalesce` does not change the
set of pairs of a relation). -/

/-- The dependence relations `compute_schedule` reads from
`gen->prog->scop` and `gen->prog`, over an abstract type `α` of
dependence pairs. -/
structure ScopDeps (α : Type) where
  dep_flow : Set α
  dep_false : Set α
  dep_forced : Set α
  independence : Set α
  array_order : Set α

/-- The three constraint sets handed to
`isl_schedule_constraints_compute_schedule`. -/
structure SchedConstraints (α : Type) where
  validity : Set α
  coincidence : Set α
  proximity : Set α

/-- Embedding of the constraint-selection part of `compute_schedule`
(src/gpu.c:4600-4626), following the source's sequencing: with live-range
reordering, `proximity` starts as `dep_flow`, `validity` adds
`dep_forced` to it, `proximity` then adds `dep_false`, and
`coincidence` is `validity` minus `independence` union `array_order`;
without reordering, a single relation `dep = dep_false ∪ dep_flow`
(coalesced) is used for all three. -/
def compute_schedule (α : Type) (live_range_reordering : Bool)
    (d : ScopDeps α) : SchedConstraints α :=
  if live_range_reordering then
    let proximity := d.dep_flow
    let validity := proximity ∪ d.dep_forced
    let proximity := proximity ∪ d.dep_false
    let coincidence := (validity \ d.independence) ∪ d.array_order
    ⟨validity, coincidence, proximity⟩
  else
    let dep := d.dep_false ∪ d.dep_flow
    ⟨dep, dep, dep⟩

/-- C8: `compute_schedule` hands the external scheduler exactly the
constraint sets prescribed by the two policies.  With live-range
reordering disabled, validity = coincidence = proximity = flow ∪
false dependences.  With it enabled, validity = flow ∪ forced-order
dependences, proximity = flow ∪ false dependences, and coincidence =
(validity minus the independence pairs) ∪ the array-order relation. -/
theorem compute_schedule_policies (α : Type) (d : ScopDeps α) :
    ((compute_schedule α false d).validity = d.dep_flow ∪ d.dep_false ∧
     (compute_schedule α false d).coincidence = d.dep_flow ∪ d.dep_false ∧
     (compute_schedule α false d).proximity = d.dep_flow ∪ d.dep_false) ∧
    ((compute_schedule α true d).validity = d.dep_flow ∪ d.dep_forced ∧
     (compute_schedule α true d).proximity = d.dep_flow ∪ d.dep_false ∧
     (compute_schedule α true d).coincidence =
       ((compute_schedule α true d).validity \ d.independence) ∪
         d.array_order) := by
  simp [compute_schedule, Set.union_comm]

/-! Embedding of the grid/block dimension-count logic
(src/gpu.c:484, 567, 596, 622, 4190-4198).  The user "sizes" option is
modelled as an optional integer tuple (`isl_set_plain_get_val_if_fixed`
values of a singleton set); the fixed-capacity `block_dim`/`grid_dim`
arrays are modelled as lists whose first `n` entries are meaningful. -/

/-- Embedding of `read_sizes_from_set` (src/gpu.c:484): given a
singleton set holding a `dim`-tuple, lower `len` to `dim` if needed and
overwrite the first `len` sizes; a missing set leaves everything
unchanged. -/
def read_sizes_from_set (user : Option (List ℤ)) (sizes : List ℤ)
    (len : ℕ) : List ℤ × ℕ :=
  match user with
  | none => (sizes, len)
  | some l =>
    let len' := min l.length len
    (l.take len' ++ sizes.drop len', len')

/-- Embedding of `read_block_sizes` (src/gpu.c:567): cap `n_block` at 3,
fill in default block sizes, then apply the user sizes. -/
def read_block_sizes (n_block : ℕ) (user : Option (List ℤ)) :
    List ℤ × ℕ :=
  let n := if n_block > 3 then 3 else n_block
  let dims : List ℤ :=
    if n = 1 then [512] else if n = 2 then [32, 16] else [32, 4, 4]
  read_sizes_from_set user dims n

/-- Embedding of `read_grid_sizes` (src/gpu.c:596): cap `n_grid` at 2,
fill in default grid sizes, then apply the user sizes. -/
def read_grid_sizes (n_grid : ℕ) (user : Option (List ℤ)) :
    List ℤ × ℕ :=
  let n := if n_grid > 2 then 2 else n_grid
  let dims : List ℤ := if n = 1 then [32768] else [256, 256]
  read_sizes_from_set user dims n

/-- Embedding of `read_grid_and_block_sizes` as invoked from
`create_kernel` (src/gpu.c:4190-4198): `n_grid` starts as
`n_parallel`, the number of outer coincident members of the selected
band, and `n_block` as the number of outer coincident members of the
band marked for thread mapping; the result is the pair of
(block sizes, `n_block`) and (grid sizes, `n_grid`). -/
def read_grid_and_block_sizes (n_parallel n_block : ℕ)
    (user_block user_grid : Option (List ℤ)) :
    (List ℤ × ℕ) × (List ℤ × ℕ) :=
  (read_block_sizes n_block user_block,
   read_grid_sizes n_parallel user_grid)

/-- C4 counterexample: a selected band with 3 outer coincident members
(`n_parallel = 3`) and no user-specified sizes yields only 2 grid
dimensions, not 3: `read_grid_sizes` caps `n_grid` at 2
(src/gpu.c:601-602). -/
theorem grid_cap_counterexample :
    (read_grid_and_block_sizes 3 3 none none).2.2 = 2 ∧
    ¬ (read_grid_and_block_sizes 3 3 none none).2.2 = 3 := by
  decide

/-- C4 amended: after `read_grid_and_block_sizes`, the number of grid
dimensions is capped at 2 (hence also at most 3) and the number of
block dimensions is capped at 3; a selected band with at least 3
outer coincident members yields exactly 2 grid dimensions when no
user grid sizes are given. -/
theorem grid_and_block_caps (n_parallel n_block : ℕ)
    (user_block user_grid : Option (List ℤ)) :
    (read_grid_and_block_sizes n_parallel n_block user_block
        user_grid).2.2 ≤ 2 ∧
    (read_grid_and_block_sizes n_parallel n_block user_block
        user_grid).1.2 ≤ 3 ∧
    (3 ≤ n_parallel → user_grid = none →
      (read_grid_and_block_sizes n_parallel n_block user_block
        user_grid).2.2 = 2) := by
  refine ⟨?_, ?_, ?_⟩
  · cases user_grid with
    | none =>
      simp only [read_grid_and_block_sizes, read_grid_sizes,
        read_sizes_from_set]
      split <;> omega
    | some l =>
      simp only [read_grid_and_block_sizes, read_grid_sizes,
        read_sizes_from_set]
      split <;> omega
  · cases user_block with
    | none =>
      simp only [read_grid_and_block_sizes, read_block_sizes,
        read_sizes_from_set]
      split <;> omega
    | some l =>
      simp only [read_grid_and_block_sizes, read_block_sizes,
        read_sizes_from_set]
      split <;> omega
  · intro h3 hnone
    subst hnone
    simp only [read_grid_and_block_sizes, read_grid_sizes,
      read_sizes_from_set]
    have : n_parallel > 2 := by omega
    simp [this]

/-- Witness for C4 amended at `n_parallel = 4`, `n_block = 5`, no user
sizes. -/
theorem grid_and_block_caps_witness :
    (read_grid_and_block_sizes 4 5 none none).2.2 ≤ 2 ∧
    (read_grid_and_block_sizes 4 5 none none).1.2 ≤ 3 ∧
    (read_grid_and_block_sizes 4 5 none none).2.2 = 2 :=
  ⟨(grid_and_block_caps 4 5 none none).1,
   (grid_and_block_caps 4 5 none none).2.1,
   (grid_and_block_caps 4 5 none none).2.2 (by decide) rfl⟩

/-! Embedding of `check_shared_memory_bound` (src/gpu.c:1529).  The
per-kernel array-reference groups are flattened, in encounter order
(outer loop over `kernel->array`, inner loop over `local->groups`),
into a single list.  Per the data model, a group carries an optional
shared-memory tile and an optional private-memory tile; only the
presence of the private tile and the footprint data of the shared tile
matter here, so a group is modelled by the flag `private_tile`, the
optional shared tile with its `gpu_array_tile_size` (in elements), and
the element size `local->array->size` of the underlying array. -/

/-- An array reference group as seen by the budget pass. -/
structure BudgetGroup where
  private_tile : Bool
  shared_tile : Option ℕ
  array_size : ℕ
deriving DecidableEq, Repr

/-- The footprint a group charges against the budget:
`gpu_array_tile_size(group->shared_tile) * local->array->size`
(src/gpu.c:1552-1553); zero when there is no shared tile. -/
def footprint (g : BudgetGroup) : ℕ :=
  match g.shared_tile with
  | none => 0
  | some ts => ts * g.array_size

/-- The loop body of `check_shared_memory_bound` (src/gpu.c:1540-1564):
walk the groups in encounter order with the remaining budget `left`;
skip groups with a private tile and groups without a shared tile;
otherwise either deduct the footprint from `left` (if it fits) or
free the group's shared tile. -/
def csmb_go (left : ℤ) : List BudgetGroup → List BudgetGroup
  | [] => []
  | g :: gs =>
    if g.private_tile then g :: csmb_go left gs
    else
      match g.shared_tile with
      | none => g :: csmb_go left gs
      | some ts =>
        if (ts * g.array_size : ℤ) ≤ left then
          g :: csmb_go (left - ts * g.array_size) gs
        else { g with shared_tile := none } :: csmb_go left gs

/-- The remaining budget after the loop has processed a list of
groups (the final value of `left`). -/
def csmb_left (left : ℤ) : List BudgetGroup → ℤ
  | [] => left
  | g :: gs =>
    if g.private_tile then csmb_left left gs
    else
      match g.shared_tile with
      | none => csmb_left left gs
      | some ts =>
        if (ts * g.array_size : ℤ) ≤ left then
          csmb_left (left - ts * g.array_size) gs
        else csmb_left left gs

/-- Embedding of `check_shared_memory_bound` (src/gpu.c:1529): a
negative `max_shared_memory` means unlimited and leaves the groups
untouched; otherwise the greedy pass runs with the full budget. -/
def check_shared_memory_bound (max_shared_memory : ℤ)
    (groups : List BudgetGroup) : List BudgetGroup :=
  if max_shared_memory < 0 then groups
  else csmb_go max_shared_memory groups

/-- The total footprint of the groups in `l` that hold a shared tile
(whether or not they also hold a private tile). -/
def sharedTotal (l : List BudgetGroup) : ℕ :=
  (l.map fun g => if g.shared_tile = none then 0 else footprint g).sum

/-- The total footprint of the groups in `l` that hold a shared tile
and no private tile: the groups the budget pass counts. -/
def countedTotal (l : List BudgetGroup) : ℕ :=
  (l.map fun g =>
    if g.private_tile then 0
    else if g.shared_tile = none then 0 else footprint g).sum

lemma csmb_go_counted_le (gs : List BudgetGroup) :
    ∀ left : ℤ, 0 ≤ left → (countedTotal (csmb_go left gs) : ℤ) ≤ left := by
  induction gs with
  | nil =>
    intro left h
    simpa [csmb_go, countedTotal]
  | cons g gs ih =>
    intro left h
    by_cases hp : g.private_tile
    · simpa [csmb_go, countedTotal, hp] using ih left h
    · cases hst : g.shared_tile with
      | none =>
        simpa [csmb_go, countedTotal, hp, hst, footprint] using ih left h
      | some ts =>
        by_cases hle : (ts * g.array_size : ℤ) ≤ left
        · have hfp : footprint g = ts * g.array_size := by
            simp [footprint, hst]
          have hrec := ih (left - ts * g.array_size) (by
            have : (0:ℤ) ≤ (ts * g.array_size : ℕ) := Int.natCast_nonneg _
            push_cast at this ⊢
            omega)
          simp only [csmb_go, hp, if_false, hst, hle, if_true, countedTotal,
            List.map_cons, List.sum_cons, hfp, Bool.false_eq_true,
            reduceIte, Nat.cast_add]
          simp only [countedTotal] at hrec
          push_cast at hrec ⊢
          omega
        · have hrec := ih left h
          simp only [csmb_go, hp, if_false, hst, hle, countedTotal,
            List.map_cons, List.sum_cons, Bool.false_eq_true, reduceIte]
          simp only [countedTotal] at hrec
          simpa using hrec

/-- The fate of one group when the loop reaches it with `remaining`
budget: groups with a private tile or without a shared tile are left
alone; otherwise the shared tile is kept exactly when the footprint
fits in the remaining budget and freed otherwise. -/
def evict_decision (remaining : ℤ) (g : BudgetGroup) : BudgetGroup :=
  if g.private_tile then g
  else
    match g.shared_tile with
    | none => g
    | some ts =>
      if (ts * g.array_size : ℤ) ≤ remaining then g
      else { g with shared_tile := none }

lemma csmb_go_getElem (gs : List BudgetGroup) :
    ∀ (left : ℤ) (i : ℕ),
      (csmb_go left gs)[i]? =
        (gs[i]?).map (evict_decision (csmb_left left (gs.take i))) := by
  induction gs with
  | nil =>
    intro left i
    simp [csmb_go]
  | cons g gs ih =>
    intro left i
    cases i with
    | zero =>
      by_cases hp : g.private_tile
      · simp [csmb_go, csmb_left, evict_decision, hp]
      · cases hst : g.shared_tile with
        | none => simp [csmb_go, csmb_left, evict_decision, hp, hst]
        | some ts =>
          by_cases hle : (ts * g.array_size : ℤ) ≤ left
          · simp [csmb_go, csmb_left, evict_decision, hp, hst, hle]
          · simp [csmb_go, csmb_left, evict_decision, hp, hst, hle]
    | succ i =>
      by_cases hp : g.private_tile
      · simp [csmb_go, csmb_left, hp, ih]
      · cases hst : g.shared_tile with
        | none => simp [csmb_go, csmb_left, hp, hst, ih]
        | some ts =>
          by_cases hle : (ts * g.array_size : ℤ) ≤ left
          · simp [csmb_go, csmb_left, hp, hst, hle, ih]
          · simp [csmb_go, csmb_left, hp, hst, hle, ih]

lemma csmb_go_length (gs : List BudgetGroup) :
    ∀ left : ℤ, (csmb_go left gs).length = gs.length := by
  induction gs with
  | nil => intro left; simp [csmb_go]
  | cons g gs ih =>
    intro left
    by_cases hp : g.private_tile
    · simp [csmb_go, hp, ih]
    · cases hst : g.shared_tile with
      | none => simp [csmb_go, hp, hst, ih]
      | some ts =>
        by_cases hle : (ts * g.array_size : ℤ) ≤ left
        · simp [csmb_go, hp, hst, hle, ih]
        · simp [csmb_go, hp, hst, hle, ih]

lemma csmb_go_append (a : List BudgetGroup) :
    ∀ (left : ℤ) (b : List BudgetGroup),
      csmb_go left (a ++ b) = csmb_go left a ++ csmb_go (csmb_left left a) b := by
  induction a with
  | nil => intro left b; simp [csmb_go, csmb_left]
  | cons g a ih =>
    intro left b
    by_cases hp : g.private_tile
    · simp [csmb_go, csmb_left, hp, ih]
    · cases hst : g.shared_tile with
      | none => simp [csmb_go, csmb_left, hp, hst, ih]
      | some ts =>
        by_cases hle : (ts * g.array_size : ℤ) ≤ left
        · simp [csmb_go, csmb_left, hp, hst, hle, ih]
        · simp [csmb_go, csmb_left, hp, hst, hle, ih]

/-- C5 counterexample: a group that holds both a private tile and a
shared tile of footprint 10 is skipped by the budget pass
(src/gpu.c:1547-1548) and keeps its shared tile, so with budget 5 the
total footprint of the groups still holding a shared tile exceeds the
budget. -/
theorem budget_counterexample :
    ¬ sharedTotal
        (check_shared_memory_bound 5
          [⟨true, some 10, 1⟩]) ≤ 5 := by
  decide

/-- C5 amended: for every finite budget `max_shared_memory ≥ 0`, after
`check_shared_memory_bound` the total footprint of the groups holding
a shared tile and no private tile never exceeds the budget, and the
pass is exactly the positional greedy rule: every group's outcome is
`evict_decision` applied at the budget remaining after all earlier
groups, so a (non-private, shared-tiled) group is evicted exactly when
its footprint exceeds the budget left by the earlier kept groups -
never more groups than necessary and never fewer. -/
theorem budget_respected (max_shared_memory : ℤ)
    (groups : List BudgetGroup) (h : 0 ≤ max_shared_memory) :
    (countedTotal (check_shared_memory_bound max_shared_memory groups) : ℤ) ≤
      max_shared_memory ∧
    (check_shared_memory_bound max_shared_memory groups).length =
      groups.length ∧
    (∀ i : ℕ,
      (check_shared_memory_bound max_shared_memory groups)[i]? =
        (groups[i]?).map
          (evict_decision (csmb_left max_shared_memory (groups.take i)))) := by
  have hneg : ¬ max_shared_memory < 0 := by omega
  refine ⟨?_, ?_, ?_⟩
  · simpa [check_shared_memory_bound, hneg] using
      csmb_go_counted_le groups max_shared_memory h
  · simpa [check_shared_memory_bound, hneg] using
      csmb_go_length groups max_shared_memory
  · intro i
    simpa [check_shared_memory_bound, hneg] using
      csmb_go_getElem groups max_shared_memory i

/-- Witness for C5 amended: budget 6, three shared-only groups of
footprints 4, 3 and 2; the middle group is evicted, the others kept. -/
theorem budget_respected_witness :
    (countedTotal (check_shared_memory_bound 6
      [⟨false, some 4, 1⟩, ⟨false, some 3, 1⟩, ⟨false, some 2, 1⟩]) : ℤ) ≤ 6 ∧
    (check_shared_memory_bound 6
      [⟨false, some 4, 1⟩, ⟨false, some 3, 1⟩, ⟨false, some 2, 1⟩]).length = 3 ∧
    (∀ i : ℕ,
      (check_shared_memory_bound 6
        [⟨false, some 4, 1⟩, ⟨false, some 3, 1⟩, ⟨false, some 2, 1⟩])[i]? =
        (([⟨false, some 4, 1⟩, ⟨false, some 3, 1⟩,
            ⟨false, some 2, 1⟩] : List BudgetGroup)[i]?).map
          (evict_decision (csmb_left 6
            (([⟨false, some 4, 1⟩, ⟨false, some 3, 1⟩,
               ⟨false, some 2, 1⟩] : List BudgetGroup).take i)))) :=
  budget_respected 6 _ (by decide)

/-- C10: a group holding a private tile is invisible to the budget
pass: wherever it sits in the encounter order, it is returned
unchanged (never evicted) and the remaining groups are treated exactly
as if it were absent (it contributes nothing to the shared-memory
total). -/
theorem private_tile_untouched (max_shared_memory : ℤ)
    (pre post : List BudgetGroup) (g : BudgetGroup)
    (hg : g.private_tile = true) :
    check_shared_memory_bound max_shared_memory (pre ++ g :: post) =
      (check_shared_memory_bound max_shared_memory (pre ++ post)).take
          pre.length ++
        g :: (check_shared_memory_bound max_shared_memory
          (pre ++ post)).drop pre.length := by
  by_cases hneg : max_shared_memory < 0
  · simp [check_shared_memory_bound, hneg, List.take_left, List.drop_left]
  · have hlen : (csmb_go max_shared_memory pre).length = pre.length :=
      csmb_go_length pre max_shared_memory
    simp only [check_shared_memory_bound, hneg, if_false, csmb_go_append]
    rw [List.take_left' hlen, List.drop_left' hlen]
    simp [csmb_go, hg]

/-- Witness for C10: a private-tiled group of huge footprint between
two shared groups does not perturb the greedy outcome. -/
theorem private_tile_untouched_witness :
    check_shared_memory_bound 4
        ([⟨false, some 3, 1⟩] ++ ⟨true, some 100, 1⟩ :: [⟨false, some 1, 1⟩]) =
      (check_shared_memory_bound 4
          ([⟨false, some 3, 1⟩] ++ [⟨false, some 1, 1⟩])).take 1 ++
        (⟨true, some 100, 1⟩ : BudgetGroup) ::
          (check_shared_memory_bound 4
            ([⟨false, some 3, 1⟩] ++ [⟨false, some 1, 1⟩])).drop 1 :=
  private_tile_untouched 4 [⟨false, some 3, 1⟩] [⟨false, some 1, 1⟩]
    ⟨true, some 100, 1⟩ rfl

/-! Embedding of `remove_private_tiles` (src/gpu.c:1354) and of the
decision structure of `interchange_for_unroll` (src/gpu.c:1396).
Per-kernel arrays are modelled by their `force_private` flag and, for
each of their reference groups, whether the group currently holds a
private tile.  The `unroll[]` array computed by the `check_unroll`
scans over the private access relations is taken as an input
predicate, and the schedule transformation is summarised by whether a
permutation was applied and by the recorded `first_unroll` position
(`-1` is modelled as `none`). -/

/-- An array of the current kernel as seen by the private-tile
machinery: the `force_private` flag and one private-tile presence flag
per reference group. -/
structure UnrollArray where
  force_private : Bool
  groups : List Bool
deriving DecidableEq, Repr

/-- Embedding of `remove_private_tiles` (src/gpu.c:1354): drop the
private tiles of all reference groups, except for the groups of
arrays marked `force_private`. -/
def remove_private_tiles (arrays : List UnrollArray) : List UnrollArray :=
  arrays.map fun a =>
    if a.force_private then a else { a with groups := a.groups.map fun _ => false }

/-- The outcome of `interchange_for_unroll`: the (possibly updated)
arrays, whether a permutation map was composed onto the schedule, and
the recorded `gen->first_unroll`. -/
structure UnrollResult where
  arrays : List UnrollArray
  permuted : Bool
  first_unroll : Option ℕ
deriving DecidableEq, Repr

/-- Embedding of the decision structure of `interchange_for_unroll`
(src/gpu.c:1396-1470) with
`len = shared_len + n_parallel + n_block`: if no dimension in
`[shared_len, len)` needs unrolling, return the schedule unchanged;
if some dimension in `[len, thread_tiled_len)` needs unrolling,
return the schedule unchanged; if any array is `force_private`,
revert the private tiling via `remove_private_tiles` and return the
schedule unchanged; otherwise permute the unrolled dimensions
innermost and record the first unroll position
`j - shared_len` where `j` counts the non-unrolled dimensions of
`[shared_len, thread_tiled_len)`. -/
def interchange_for_unroll (shared_len n_parallel n_block
    thread_tiled_len : ℕ) (unroll : ℕ → Bool) (any_force_private : Bool)
    (arrays : List UnrollArray) : UnrollResult :=
  let len := shared_len + n_parallel + n_block
  if ((List.range' shared_len (len - shared_len)).filter unroll) = [] then
    ⟨arrays, false, none⟩
  else if ((List.range' len (thread_tiled_len - len)).filter unroll) ≠ [] then
    ⟨arrays, false, none⟩
  else if any_force_private then
    ⟨remove_private_tiles arrays, false, none⟩
  else
    ⟨arrays, true,
      some ((List.range' shared_len (thread_tiled_len - shared_len)).filter
        (fun i => ¬ unroll i)).length⟩

/-- C9 counterexample: a dimension inside the thread-tile-and-parallel
window must be unrolled and the kernel has a force-private array, yet
a further unroll dimension beyond the window makes
`interchange_for_unroll` return early (src/gpu.c:1444-1446): no
private tile is removed at all, refuting "every array-reference group
has its private tile removed". -/
theorem unroll_abandon_counterexample :
    ¬ (∀ a ∈ (interchange_for_unroll 0 1 0 2 (fun _ => true) true
          [⟨false, [true]⟩, ⟨true, [true]⟩]).arrays,
        ∀ g ∈ a.groups, g = false) := by
  decide

/-- C9 amended: whenever `interchange_for_unroll` finds a dimension
inside the thread-tile-and-parallel window that must be unrolled, no
dimension outside that window needs unrolling, and the kernel has a
force-private array, then the private tiling is reverted for the
kernel by `remove_private_tiles`: every group of every
non-force-private array loses its private tile (groups of
force-private arrays keep theirs), and the schedule is returned
without any permutation or unroll mark. -/
theorem unroll_abandon (shared_len n_parallel n_block
    thread_tiled_len : ℕ) (unroll : ℕ → Bool)
    (arrays : List UnrollArray)
    (hwin : ((List.range' shared_len (n_parallel + n_block)).filter
      unroll) ≠ [])
    (hout : ((List.range' (shared_len + n_parallel + n_block)
      (thread_tiled_len - (shared_len + n_parallel + n_block))).filter
        unroll) = []) :
    interchange_for_unroll shared_len n_parallel n_block thread_tiled_len
        unroll true arrays =
      ⟨remove_private_tiles arrays, false, none⟩ ∧
    (∀ a ∈ (interchange_for_unroll shared_len n_parallel n_block
        thread_tiled_len unroll true arrays).arrays,
      a.force_private = false → ∀ g ∈ a.groups, g = false) := by
  have hlen : shared_len + n_parallel + n_block - shared_len =
      n_parallel + n_block := by omega
  have hmain : interchange_for_unroll shared_len n_parallel n_block
      thread_tiled_len unroll true arrays =
      ⟨remove_private_tiles arrays, false, none⟩ := by
    simp only [interchange_for_unroll, hlen]
    rw [if_neg hwin, if_neg (by simpa using hout)]
    simp
  refine ⟨hmain, ?_⟩
  rw [hmain]
  intro a ha hnf g hg
  simp only [remove_private_tiles, List.mem_map] at ha
  obtain ⟨b, _, hb⟩ := ha
  subst hb
  cases hf : b.force_private with
  | true =>
    rw [if_pos hf] at hnf
    rw [hnf] at hf
    exact absurd hf (by simp)
  | false =>
    rw [if_neg (by simp [hf])] at hg
    simp only [List.mem_map] at hg
    obtain ⟨x, _, hfg⟩ := hg
    exact hfg.symm

/-- Witness for C9 amended: one unrolled window dimension, no out-of-
window unroll, one ordinary array and one force-private array. -/
theorem unroll_abandon_witness :
    interchange_for_unroll 0 1 0 1 (fun i => i = 0) true
        [⟨false, [true]⟩, ⟨true, [true]⟩] =
      ⟨remove_private_tiles [⟨false, [true]⟩, ⟨true, [true]⟩],
        false, none⟩ ∧
    (∀ a ∈ (interchange_for_unroll 0 1 0 1 (fun i => i = 0) true
        [⟨false, [true]⟩, ⟨true, [true]⟩]).arrays,
      a.force_private = false → ∀ g ∈ a.groups, g = false) :=
  unroll_abandon 0 1 0 1 (fun i => i = 0)
    [⟨false, [true]⟩, ⟨true, [true]⟩] (by decide) (by decide)

/-! Embedding of the rank encoding of the memory-hierarchy schedule
(`add_group_schedule`, src/gpu.c:3299, and `body_schedule`,
src/gpu.c:3392).  Each entry added to the combined schedule fixes one
even "statement-level" coordinate (via `insert_even`) to a signed
rank; the embedding records, per entry, the code site that created it,
the group counter `k` it was created for, and that rank.  A reference
group is abstracted by whether it holds a private tile, whether it
holds a shared tile, whether its read (resp. write) access relation is
still non-empty after `remove_local_accesses` (the early-exit test at
src/gpu.c:3316), and its copy level `pos = last_shared + 1 -
tile_first` (src/gpu.c:3332). -/

/-- A reference group as seen by `body_schedule` and
`add_group_schedule`. -/
structure SchedGroup where
  private_tile : Bool
  shared_tile : Bool
  has_read : Bool
  has_write : Bool
  pos : ℕ
deriving DecidableEq, Repr

/-- One entry of the combined memory-hierarchy schedule, identified by
the code site that adds it: the kernel body (even coordinates fixed to
0 in `body_schedule`), a read or write copy entry, the
synchronization added after a read copy, the synchronization added
after a write copy, or the unconditional synchronization added at the
end of `body_schedule`.  `rank` is the value the entry fixes its even
coordinate to. -/
inductive MemEntry where
  | body (rank : ℤ)
  | readCopy (k : ℕ) (rank : ℤ)
  | writeCopy (priv : Bool) (k : ℕ) (rank : ℤ)
  | syncRead (rank : ℤ)
  | syncWrite (rank : ℤ)
  | syncBody (rank : ℤ)
deriving DecidableEq, Repr

/-- Embedding of `add_group_schedule` (src/gpu.c:3299) for group
number `k` of `s` total groups at sync level bound `n = shared_len -
tile_first`: an empty access relation adds nothing; otherwise a copy
entry is added with rank `-2 - k` for a read, `1 + k` for a write from
a private tile, and `1 + s + 1 + k` for a write from a shared tile
(src/gpu.c:3334-3339); a read from a group without a private tile is
followed by a synchronization at rank `-1` (src/gpu.c:3351-3354); a
write is followed by a synchronization at rank `2*s + 2` unless
`pos == 0`, or `pos == n` with a private tile (src/gpu.c:3355-3361). -/
def add_group_schedule (n : ℕ) (g : SchedGroup) (read : Bool)
    (k s : ℕ) : List MemEntry :=
  if (if read then g.has_read else g.has_write) = false then []
  else
    (if read then [MemEntry.readCopy k (-2 - (k : ℤ))]
     else if g.private_tile then [MemEntry.writeCopy true k (1 + (k : ℤ))]
     else [MemEntry.writeCopy false k (1 + (s : ℤ) + 1 + (k : ℤ))]) ++
    (if read then
       if g.private_tile = false then [MemEntry.syncRead (-1)] else []
     else
       if g.pos = 0 then []
       else if g.pos = n ∧ g.private_tile = true then []
       else [MemEntry.syncWrite (2 * (s : ℤ) + 2)])

/-- The group loop of `body_schedule` (src/gpu.c:3418-3434): walk the
groups in encounter order, skip groups with neither a private nor a
shared tile, and add the write and then the read schedule of every
other group, incrementing the counter `k`. -/
def body_groups (n s : ℕ) : ℕ → List SchedGroup → List MemEntry
  | _, [] => []
  | k, g :: gs =>
    if g.private_tile = false ∧ g.shared_tile = false then
      body_groups n s k gs
    else
      add_group_schedule n g false k s ++ add_group_schedule n g true k s ++
        body_groups n s (k + 1) gs

/-- Embedding of `body_schedule` (src/gpu.c:3392): the kernel body
with all even coordinates fixed to 0, then the copy/sync entries of
every tiled group (with `s` the total number of groups of the kernel,
src/gpu.c:3414-3416), and finally the unconditional synchronization
after the kernel body at rank `1 + s` (src/gpu.c:3436-3437). -/
def body_schedule (n : ℕ) (groups : List SchedGroup) : List MemEntry :=
  MemEntry.body 0 ::
    (body_groups n groups.length 0 groups ++
      [MemEntry.syncBody (1 + (groups.length : ℤ))])

/-- Shape facts for the entries produced by the group loop, relative
to the total group count `s`. -/
def groupEntryFacts (s : ℕ) : MemEntry → Prop
  | MemEntry.readCopy k r => k < s ∧ r = -2 - (k : ℤ)
  | MemEntry.writeCopy true k r => k < s ∧ r = 1 + (k : ℤ)
  | MemEntry.writeCopy false k r => k < s ∧ r = (s : ℤ) + 2 + (k : ℤ)
  | MemEntry.syncRead r => r = -1
  | MemEntry.syncWrite r => r = 2 * (s : ℤ) + 2
  | MemEntry.body _ => False
  | MemEntry.syncBody _ => False

lemma add_group_schedule_facts (n : ℕ) (g : SchedGroup) (read : Bool)
    (k s : ℕ) (hk : k < s) :
    ∀ e ∈ add_group_schedule n g read k s, groupEntryFacts s e := by
  intro e he
  cases read with
  | true =>
    by_cases hr : g.has_read = false
    · simp [add_group_schedule, hr] at he
    · by_cases hp : g.private_tile = false
      · simp [add_group_schedule, hr, hp] at he
        rcases he with he | he
        · subst he
          exact ⟨hk, rfl⟩
        · subst he
          rfl
      · simp [add_group_schedule, hr, hp] at he
        subst he
        exact ⟨hk, rfl⟩
  | false =>
    by_cases hw : g.has_write = false
    · simp [add_group_schedule, hw] at he
    · by_cases hp : g.private_tile = true
      · simp [add_group_schedule, hw, hp] at he
        rcases he with he | ⟨-, -, he⟩
        · subst he
          exact ⟨hk, rfl⟩
        · subst he
          rfl
      · simp [add_group_schedule, hw, hp] at he
        rcases he with he | ⟨-, he⟩
        · subst he
          exact ⟨hk, by ring⟩
        · subst he
          rfl

lemma body_groups_facts (n s : ℕ) :
    ∀ (gs : List SchedGroup) (k : ℕ), k + gs.length ≤ s →
      ∀ e ∈ body_groups n s k gs, groupEntryFacts s e := by
  intro gs
  induction gs with
  | nil =>
    intro k _ e he
    simp [body_groups] at he
  | cons g gs ih =>
    intro k hk e he
    simp only [body_groups] at he
    split at he
    · exact ih k (by simp at hk; omega) e he
    · rw [List.mem_append, List.mem_append] at he
      rcases he with (he | he) | he
      · exact add_group_schedule_facts n g false k s
          (by simp at hk; omega) e he
      · exact add_group_schedule_facts n g true k s
          (by simp at hk; omega) e he
      · exact ih (k + 1) (by simp at hk; omega) e he

lemma body_schedule_facts (n : ℕ) (groups : List SchedGroup) :
    ∀ e ∈ body_schedule n groups,
      e = MemEntry.body 0 ∨
      e = MemEntry.syncBody (1 + (groups.length : ℤ)) ∨
      groupEntryFacts groups.length e := by
  intro e he
  simp only [body_schedule, List.mem_cons, List.mem_append,
    List.mem_singleton] at he
  rcases he with he | he | he | he
  · exact Or.inl he
  · exact Or.inr (Or.inr
      (body_groups_facts n groups.length groups 0 (by simp) e he))
  · exact Or.inr (Or.inl he)
  · simp at he

/-- The rank conditions claimed for the individual entries: a read
copy is ranked `-2 - k` (negative), a private write copy `1 + k`
(within `1..s`), a shared write copy `s + 2 + k` (within
`s+2..2s+1`), and the synchronization after the copy-out writes
`2s + 2`. -/
def rankSpec (s : ℕ) : MemEntry → Bool
  | MemEntry.readCopy k r => r == -2 - (k : ℤ) && decide (r < 0)
  | MemEntry.writeCopy true k r =>
      r == 1 + (k : ℤ) && decide (1 ≤ r) && decide (r ≤ (s : ℤ))
  | MemEntry.writeCopy false k r =>
      r == (s : ℤ) + 2 + (k : ℤ) && decide ((s : ℤ) + 2 ≤ r) &&
        decide (r ≤ 2 * (s : ℤ) + 1)
  | MemEntry.syncWrite r => r == 2 * (s : ℤ) + 2
  | _ => true

/-- C1: in the memory-hierarchy schedule of a kernel with `s`
reference groups, every read copy entry is ranked `-2 - k` (negative),
every write copy entry of a group holding a private tile is ranked
`1 + k` (within `1..s`), every write copy entry of a group holding
only a shared tile is ranked `s + 2 + k` (within `s+2..2s+1`), and
every synchronization scheduled after the copy-out writes is ranked
`2s + 2`. -/
theorem group_schedule_ranks (n : ℕ) (groups : List SchedGroup) :
    (body_schedule n groups).all (rankSpec groups.length) = true := by
  rw [List.all_eq_true]
  intro e he
  rcases body_schedule_facts n groups e he with h | h | h
  · subst h; rfl
  · subst h; rfl
  · cases e with
    | body r => exact absurd h id
    | syncBody r => exact absurd h id
    | syncRead r => rfl
    | syncWrite r =>
      simp only [groupEntryFacts] at h
      subst h
      simp [rankSpec]
    | readCopy k r =>
      simp only [groupEntryFacts] at h
      obtain ⟨hk, hr⟩ := h
      subst hr
      simp only [rankSpec, beq_self_eq_true, Bool.true_and,
        decide_eq_true_eq]
      omega
    | writeCopy p k r =>
      cases p with
      | true =>
        simp only [groupEntryFacts] at h
        obtain ⟨hk, hr⟩ := h
        subst hr
        simp only [rankSpec, beq_self_eq_true, Bool.true_and,
          Bool.and_eq_true, decide_eq_true_eq]
        omega
      | false =>
        simp only [groupEntryFacts] at h
        obtain ⟨hk, hr⟩ := h
        subst hr
        simp only [rankSpec, beq_self_eq_true, Bool.true_and,
          Bool.and_eq_true, decide_eq_true_eq]
        omega

/-- The pairwise ordering asserted by the claimed rank chain: every
read entry ranks strictly below the unconditional post-body barrier,
which ranks strictly below every private-write entry, which ranks
strictly below every shared-write entry, which ranks strictly below
the final barrier. -/
def claimedChainPair : MemEntry → MemEntry → Bool
  | MemEntry.readCopy _ r, MemEntry.syncBody r' => decide (r < r')
  | MemEntry.syncBody r, MemEntry.writeCopy true _ r' => decide (r < r')
  | MemEntry.writeCopy true _ r, MemEntry.writeCopy false _ r' =>
      decide (r < r')
  | MemEntry.writeCopy false _ r, MemEntry.syncWrite r' => decide (r < r')
  | _, _ => true

/-- The pairwise ordering that actually holds: reads rank strictly
below private writes, which rank strictly below the unconditional
post-body barrier, which ranks strictly below shared writes, which
rank strictly below the final barrier (and reads still rank strictly
below the post-body barrier). -/
def actualChainPair : MemEntry → MemEntry → Bool
  | MemEntry.readCopy _ r, MemEntry.writeCopy true _ r' => decide (r < r')
  | MemEntry.readCopy _ r, MemEntry.syncBody r' => decide (r < r')
  | MemEntry.writeCopy true _ r, MemEntry.syncBody r' => decide (r < r')
  | MemEntry.syncBody r, MemEntry.writeCopy false _ r' => decide (r < r')
  | MemEntry.writeCopy false _ r, MemEntry.syncWrite r' => decide (r < r')
  | _, _ => true

/-- A pairwise ordering `p` holds on all pairs of entries of `es`. -/
def chainHolds (p : MemEntry → MemEntry → Bool) (es : List MemEntry) :
    Prop :=
  (es.all fun e => es.all fun e' => p e e') = true

/-- C2 counterexample: for a kernel with a single private-tiled group
with a write, the private write is ranked `1` and the unconditional
post-body barrier `1 + s = 2`, so the barrier does not rank strictly
below the private write as claimed: the code orders private writes
before the unconditional barrier (src/gpu.c:3336-3337, 3436-3437). -/
theorem ordering_chain_counterexample :
    ¬ chainHolds claimedChainPair
        (body_schedule 1 [⟨true, false, false, true, 1⟩]) := by
  unfold chainHolds
  decide

lemma mem_readCopy_facts (n : ℕ) (groups : List SchedGroup) (k : ℕ)
    (r : ℤ) (he : MemEntry.readCopy k r ∈ body_schedule n groups) :
    k < groups.length ∧ r = -2 - (k : ℤ) := by
  rcases body_schedule_facts n groups _ he with h | h | h
  · exact absurd h (by simp)
  · exact absurd h (by simp)
  · exact h

lemma mem_writePriv_facts (n : ℕ) (groups : List SchedGroup)
    (k : ℕ) (r : ℤ)
    (he : MemEntry.writeCopy true k r ∈ body_schedule n groups) :
    k < groups.length ∧ r = 1 + (k : ℤ) := by
  rcases body_schedule_facts n groups _ he with h | h | h
  · exact absurd h (by simp)
  · exact absurd h (by simp)
  · exact h

lemma mem_writeShared_facts (n : ℕ) (groups : List SchedGroup)
    (k : ℕ) (r : ℤ)
    (he : MemEntry.writeCopy false k r ∈ body_schedule n groups) :
    k < groups.length ∧ r = (groups.length : ℤ) + 2 + (k : ℤ) := by
  rcases body_schedule_facts n groups _ he with h | h | h
  · exact absurd h (by simp)
  · exact absurd h (by simp)
  · exact h

lemma mem_syncWrite_facts (n : ℕ) (groups : List SchedGroup) (r : ℤ)
    (he : MemEntry.syncWrite r ∈ body_schedule n groups) :
    r = 2 * (groups.length : ℤ) + 2 := by
  rcases body_schedule_facts n groups _ he with h | h | h
  · exact absurd h (by simp)
  · exact absurd h (by simp)
  · exact h

lemma mem_syncBody_facts (n : ℕ) (groups : List SchedGroup) (r : ℤ)
    (he : MemEntry.syncBody r ∈ body_schedule n groups) :
    r = 1 + (groups.length : ℤ) := by
  rcases body_schedule_facts n groups _ he with h | h | h
  · exact absurd h (by simp)
  · simpa using h
  · exact absurd h id

/-- C2 amended: in the memory-hierarchy schedule of a kernel with `s`
groups, the rank of every read entry is strictly less than every
private-write rank and than the rank of the unconditional post-body
barrier; every private-write rank is strictly less than the rank of
that barrier, which is strictly less than every shared-write rank,
which is strictly less than the final barrier rank. -/
theorem ordering_chain (n : ℕ) (groups : List SchedGroup) :
    chainHolds actualChainPair (body_schedule n groups) := by
  rw [chainHolds, List.all_eq_true]
  intro e he
  rw [List.all_eq_true]
  intro e' he'
  cases e with
  | body r => cases e' <;> rfl
  | syncRead r => cases e' <;> rfl
  | syncWrite r => cases e' <;> rfl
  | readCopy k r =>
    obtain ⟨hk, hr⟩ := mem_readCopy_facts n groups k r he
    cases e' with
    | writeCopy p' k' r' =>
      cases p' with
      | true =>
        obtain ⟨hk', hr'⟩ := mem_writePriv_facts n groups k' r' he'
        simp only [actualChainPair, decide_eq_true_eq]
        omega
      | false => rfl
    | syncBody r' =>
      have hr' := mem_syncBody_facts n groups r' he'
      simp only [actualChainPair, decide_eq_true_eq]
      omega
    | body r' => rfl
    | readCopy k' r' => rfl
    | syncRead r' => rfl
    | syncWrite r' => rfl
  | writeCopy p k r =>
    cases p with
    | true =>
      obtain ⟨hk, hr⟩ := mem_writePriv_facts n groups k r he
      cases e' with
      | syncBody r' =>
        have hr' := mem_syncBody_facts n groups r' he'
        simp only [actualChainPair, decide_eq_true_eq]
        omega
      | writeCopy p' k' r' => cases p' <;> rfl
      | body r' => rfl
      | readCopy k' r' => rfl
      | syncRead r' => rfl
      | syncWrite r' => rfl
    | false =>
      obtain ⟨hk, hr⟩ := mem_writeShared_facts n groups k r he
      cases e' with
      | syncWrite r' =>
        have hr' := mem_syncWrite_facts n groups r' he'
        simp only [actualChainPair, decide_eq_true_eq]
        omega
      | writeCopy p' k' r' => cases p' <;> rfl
      | body r' => rfl
      | readCopy k' r' => rfl
      | syncRead r' => rfl
      | syncBody r' => rfl
  | syncBody r =>
    have hr := mem_syncBody_facts n groups r he
    cases e' with
    | writeCopy p' k' r' =>
      cases p' with
      | true => rfl
      | false =>
        obtain ⟨hk', hr'⟩ := mem_writeShared_facts n groups k' r' he'
        simp only [actualChainPair, decide_eq_true_eq]
        omega
    | body r' => rfl
    | readCopy k' r' => rfl
    | syncRead r' => rfl
    | syncWrite r' => rfl
    | syncBody r' => rfl

/-! Embedding of `extract_size` (src/gpu.c:1616) and
`extract_grid_size` (src/gpu.c:1665).  The description of the grid -
the set of block-id tuples exercised by the live statement instances
of the kernel (the parameters of `domain ∩ kernel->block_filter`
turned into set dimensions) - is modelled as a nonempty list of
integer tuples; `isl_set_dim_max` is the maximum of coordinate `i`
over the set, and `extract_size` adds one to it in every dimension.
The gist against the kernel context only simplifies the piecewise
expression and does not change its value on the set, so it is the
identity in this parameter-free model. -/

/-- The maximum of coordinate `i` over a set of tuples
(`isl_set_dim_max`); the base value 0 of the empty set is never used,
as the set description of a kernel grid is nonempty. -/
def dim_max : List (List ℤ) → ℕ → ℤ
  | [], _ => 0
  | p :: ps, i => max (p.getD i 0) (dim_max ps i)

/-- Embedding of `extract_size` (src/gpu.c:1616) in one dimension:
the maximal value of the set in direction `i`, plus one. -/
def extract_size (grid : List (List ℤ)) (i : ℕ) : ℤ :=
  dim_max grid i + 1

/-- Embedding of `extract_grid_size` (src/gpu.c:1665): the bound
computed by `extract_size` in each of the `n_grid` block dimensions.
The configured `kernel->grid_dim` is not an input: the result depends
only on the exercised block ids. -/
def extract_grid_size (grid : List (List ℤ)) (n_grid : ℕ) : List ℤ :=
  (List.range n_grid).map (extract_size grid)

lemma le_dim_max (i : ℕ) :
    ∀ grid : List (List ℤ), ∀ p ∈ grid, p.getD i 0 ≤ dim_max grid i := by
  intro grid
  induction grid with
  | nil => intro p hp; simp at hp
  | cons q qs ih =>
    intro p hp
    rcases List.mem_cons.mp hp with h | h
    · subst h
      exact le_max_left _ _
    · exact le_trans (ih p h) (le_max_right _ _)

lemma dim_max_le (i : ℕ) (m : ℤ) (hm : 0 ≤ m) :
    ∀ grid : List (List ℤ), (∀ p ∈ grid, p.getD i 0 ≤ m) →
      dim_max grid i ≤ m := by
  intro grid
  induction grid with
  | nil => intro _; simpa [dim_max]
  | cons q qs ih =>
    intro h
    simp only [dim_max, max_le_iff]
    exact ⟨h q (List.mem_cons_self q qs),
      ih fun p hp => h p (List.mem_cons_of_mem q hp)⟩

lemma dim_max_attained (i : ℕ) :
    ∀ grid : List (List ℤ), grid ≠ [] →
      (∀ p ∈ grid, 0 ≤ p.getD i 0) →
      ∃ p ∈ grid, dim_max grid i = p.getD i 0 := by
  intro grid
  induction grid with
  | nil => intro h; exact absurd rfl h
  | cons q qs ih =>
    intro _ hnn
    cases qs with
    | nil =>
      refine ⟨q, List.mem_cons_self q [], ?_⟩
      have h0 := hnn q (List.mem_cons_self q [])
      simp only [dim_max]
      omega
    | cons r rs =>
      obtain ⟨p, hp, hmax⟩ := ih (by simp)
        (fun p hp => hnn p (List.mem_cons_of_mem q hp))
      have hq : dim_max (q :: r :: rs) i =
          max (q.getD i 0) (dim_max (r :: rs) i) := rfl
      by_cases hle : dim_max (r :: rs) i ≤ q.getD i 0
      · exact ⟨q, List.mem_cons_self q _, by rw [hq, max_eq_left hle]⟩
      · refine ⟨p, List.mem_cons_of_mem q hp, ?_⟩
        rw [hq, max_eq_right (le_of_not_le hle), hmax]

/-- C6 counterexample: for a domain restricted to a single fixed point
whose block id is 1, `extract_grid_size` returns grid size 2 (one plus
the block id), not 1 as claimed: the code normalizes nothing, it only
adds one to the maximal exercised block id (src/gpu.c:1630-1637). -/
theorem grid_size_counterexample :
    extract_grid_size [[1]] 1 = [2] ∧ ¬ extract_grid_size [[1]] 1 = [1] := by
  decide

/-- C6 amended: for every nonempty set of exercised (nonnegative)
block ids, `extract_size` returns in each dimension one plus the
maximal exercised block id: a bound of at least 1 that strictly
bounds every exercised block id, minimal among all such bounds, and
computed solely from the exercised ids (never the configured or
default grid size); for a domain restricted to a single fixed point,
the grid size in every dimension is one plus that point's block id -
exactly 1 precisely when the point lies in block 0. -/
theorem grid_size_minimal (grid : List (List ℤ)) (i : ℕ)
    (hne : grid ≠ []) (hnn : ∀ p ∈ grid, 0 ≤ p.getD i 0) :
    1 ≤ extract_size grid i ∧
    (∀ p ∈ grid, p.getD i 0 < extract_size grid i) ∧
    (∀ m : ℤ, 1 ≤ m → (∀ p ∈ grid, p.getD i 0 < m) →
      extract_size grid i ≤ m) ∧
    (∃ p ∈ grid, extract_size grid i = p.getD i 0 + 1) ∧
    (∀ b : List ℤ, 0 ≤ b.getD i 0 → extract_size [b] i = b.getD i 0 + 1) := by
  obtain ⟨p₀, hp₀, hmax⟩ := dim_max_attained i grid hne hnn
  refine ⟨?_, ?_, ?_, ?_, ?_⟩
  · have := hnn p₀ hp₀
    simp only [extract_size]
    omega
  · intro p hp
    have := le_dim_max i grid p hp
    simp only [extract_size]
    omega
  · intro m hm hbound
    have := dim_max_le i (m - 1) (by omega) grid
      (fun p hp => by have := hbound p hp; omega)
    simp only [extract_size]
    omega
  · exact ⟨p₀, hp₀, by simp only [extract_size]; omega⟩
  · intro b hb
    simp only [extract_size, dim_max]
    omega

/-- Witness for C6 amended: two exercised block ids 0 and 2 give grid
size 3: at least 1, strictly bounding both ids, minimal with these
properties, and attained at the id 2. -/
theorem grid_size_minimal_witness :
    1 ≤ extract_size [[0], [2]] 0 ∧
    (∀ p ∈ ([[0], [2]] : List (List ℤ)),
      p.getD 0 0 < extract_size [[0], [2]] 0) ∧
    (∀ m : ℤ, 1 ≤ m →
      (∀ p ∈ ([[0], [2]] : List (List ℤ)), p.getD 0 0 < m) →
      extract_size [[0], [2]] 0 ≤ m) ∧
    (∃ p ∈ ([[0], [2]] : List (List ℤ)),
      extract_size [[0], [2]] 0 = p.getD 0 0 + 1) ∧
    (∀ b : List ℤ, 0 ≤ b.getD 0 0 →
      extract_size [b] 0 = b.getD 0 0 + 1) :=
  grid_size_minimal [[0], [2]] 0 (by decide) (by decide)

end PPCG
